import Mathlib

/-!
Shallow embedding of the category-management and aggregation core of the
GestionGastos backend (src/app.py), together with theorems settling the
frozen claims about it.

Modelling conventions:
- Monetary amounts (Python floats used only for addition/comparison of
  decimal inputs) are modelled as rationals.
- The Firestore document store is modelled as a `Store` record holding the
  `categories` collection, the `transactions` collection and the per-user
  `settings.monthlyGoal` values; queries become list filters and batched
  updates become list maps.
- Transaction dates are ISO strings "YYYY-MM-DD"; Firestore timestamp
  comparison becomes lexicographic string comparison (order-isomorphic on
  ISO dates) and `strftime "%Y-%m"` becomes taking the first 7 characters.
- Python `str.strip` / `str.title` are modelled character by character.
-/

namespace GestionGastos

/-- Characters stripped by Python `str.strip()` on the ASCII inputs this
system handles. -/
def isStripped (c : Char) : Bool :=
  c = ' ' || c = '\t' || c = '\n' || c = '\r'

/-- Drops stripped characters from the front of a character list. -/
def dropWhite : List Char → List Char
  | [] => []
  | c :: cs => if isStripped c then dropWhite cs else c :: cs

/-- Model of Python `str.strip()`: removes whitespace at both ends. -/
def pyStrip (s : String) : String :=
  String.mk (List.reverse (dropWhite (List.reverse (dropWhite s.data))))

/-- Model of Python `str.title()` on a character list: a character is
uppercased when the previous character is not alphabetic, lowercased
otherwise. The boolean argument records whether the previous character was
alphabetic. -/
def titleChars : Bool → List Char → List Char
  | _, [] => []
  | prev, c :: cs =>
      (if prev then c.toLower else c.toUpper) :: titleChars c.isAlpha cs

/-- Model of Python `str.title()`. -/
def pyTitle (s : String) : String :=
  String.mk (titleChars false s.data)

/-- The normalization applied throughout src/app.py to category names:
`.strip().title()`. -/
def normalize (s : String) : String :=
  pyTitle (pyStrip s)

/-- Code-point lexicographic comparison of character lists, the order
Python uses to compare strings in `sorted` and `>=`. -/
def charListLe : List Char → List Char → Bool
  | [], _ => true
  | _ :: _, [] => false
  | a :: as, b :: bs =>
      if a.toNat < b.toNat then true
      else if b.toNat < a.toNat then false
      else charListLe as bs

/-- Python string order (code-point lexicographic), as a proposition. -/
def strLe (a b : String) : Prop :=
  charListLe a.data b.data = true

instance : DecidableRel strLe :=
  fun a b => inferInstanceAs (Decidable (charListLe a.data b.data = true))

theorem charListLe_total : ∀ as bs : List Char,
    charListLe as bs = true ∨ charListLe bs as = true
  | [], _ => Or.inl rfl
  | _ :: _, [] => Or.inr rfl
  | a :: as, b :: bs => by
      rcases Nat.lt_trichotomy a.toNat b.toNat with h | h | h
      · left; simp [charListLe, h]
      · have h1 : ¬ a.toNat < b.toNat := by omega
        have h2 : ¬ b.toNat < a.toNat := by omega
        rcases charListLe_total as bs with ih | ih
        · left; simp [charListLe, h1, h2, ih]
        · right; simp [charListLe, h1, h2, ih]
      · right; simp [charListLe, h]

theorem charListLe_trans : ∀ as bs cs : List Char,
    charListLe as bs = true → charListLe bs cs = true → charListLe as cs = true
  | [], _, _, _, _ => rfl
  | _ :: _, [], _, h1, _ => by simp [charListLe] at h1
  | _ :: _, _ :: _, [], _, h2 => by simp [charListLe] at h2
  | a :: as, b :: bs, c :: cs, h1, h2 => by
      simp only [charListLe] at h1 h2 ⊢
      by_cases hab : a.toNat < b.toNat
      · by_cases hbc : b.toNat < c.toNat
        · rw [if_pos (by omega : a.toNat < c.toNat)]
        · by_cases hcb : c.toNat < b.toNat
          · rw [if_neg hbc, if_pos hcb] at h2; simp at h2
          · rw [if_pos (by omega : a.toNat < c.toNat)]
      · by_cases hba : b.toNat < a.toNat
        · rw [if_neg hab, if_pos hba] at h1; simp at h1
        · by_cases hbc : b.toNat < c.toNat
          · rw [if_pos (by omega : a.toNat < c.toNat)]
          · by_cases hcb : c.toNat < b.toNat
            · rw [if_neg hbc, if_pos hcb] at h2; simp at h2
            · rw [if_neg hab, if_neg hba] at h1
              rw [if_neg hbc, if_neg hcb] at h2
              rw [if_neg (by omega : ¬ a.toNat < c.toNat),
                if_neg (by omega : ¬ c.toNat < a.toNat)]
              exact charListLe_trans as bs cs h1 h2

theorem char_toNat_inj {a b : Char} (h : a.toNat = b.toNat) : a = b := by
  have : Char.ofNat a.toNat = Char.ofNat b.toNat := congrArg Char.ofNat h
  simpa [Char.ofNat_toNat] using this

theorem charListLe_antisymm : ∀ as bs : List Char,
    charListLe as bs = true → charListLe bs as = true → as = bs
  | [], [], _, _ => rfl
  | [], _ :: _, _, h2 => by simp [charListLe] at h2
  | _ :: _, [], h1, _ => by simp [charListLe] at h1
  | a :: as, b :: bs, h1, h2 => by
      simp only [charListLe] at h1 h2
      rcases Nat.lt_trichotomy a.toNat b.toNat with hab | hab | hab
      · rw [if_neg (by omega : ¬ b.toNat < a.toNat), if_pos hab] at h2
        simp at h2
      · have h1' : ¬ a.toNat < b.toNat := by omega
        have h2' : ¬ b.toNat < a.toNat := by omega
        rw [if_neg h1', if_neg h2'] at h1
        rw [if_neg h2', if_neg h1'] at h2
        rw [char_toNat_inj hab, charListLe_antisymm as bs h1 h2]
      · rw [if_neg (by omega : ¬ a.toNat < b.toNat), if_pos hab] at h1
        simp at h1

instance : IsTotal String strLe :=
  ⟨fun a b => charListLe_total a.data b.data⟩

instance : IsTrans String strLe :=
  ⟨fun a b c => charListLe_trans a.data b.data c.data⟩

theorem strLe_antisymm {a b : String} (h1 : strLe a b) (h2 : strLe b a) :
    a = b := by
  cases a; cases b
  exact congrArg String.mk (charListLe_antisymm _ _ h1 h2)

instance : IsAntisymm String strLe :=
  ⟨fun _ _ h1 h2 => strLe_antisymm h1 h2⟩

/-- The fixed default category list `DEFAULT_CATEGORIES` of src/app.py
(lines 20-27); the sentinel "Otros" is not a member, it is appended by
`_get_user_categories`. -/
def DEFAULT_CATEGORIES : List String :=
  ["Transporte", "Comida", "Entretenimiento", "Servicios", "Renta"]

/-- A document of the `categories` collection: src/app.py stores
`{userId, name, createdAt}` (lines 118-122). `createdAt` is an abstract
timestamp. -/
structure CategoryRec where
  userId : String
  name : String
  createdAt : Nat
deriving DecidableEq, Repr

/-- A document of the `transactions` collection (src/app.py lines 556-563).
`txType` is the `type` field, the date is an ISO "YYYY-MM-DD" string. -/
structure Transaction where
  userId : String
  txType : String
  amount : ℚ
  category : String
  description : String
  date : String
deriving DecidableEq, Repr

/-- The document store: the collections src/app.py reads and writes.
`goals` models the `settings` collection's `monthlyGoal` field per user. -/
structure Store where
  categories : List CategoryRec
  transactions : List Transaction
  goals : List (String × ℚ)
deriving DecidableEq, Repr

/-- The custom-category names fetched for a user by `_get_user_categories`
(src/app.py lines 63-73): documents matching `userId`, keeping each `name`
field exactly as stored, skipping falsy (empty) names. -/
def userCustomNames (st : Store) (uid : String) : List String :=
  ((st.categories.filter (fun c => c.userId == uid)).map
    (fun c => c.name)).filter (fun n => n ≠ "")

/-- Embedding of `_get_user_categories` (src/app.py lines 58-86), storage
available: union the defaults with the user's stored custom names in a set,
sort ascending, then force the sentinel "Otros" to the end. -/
def listCategories (st : Store) (uid : String) : List String :=
  let all := (DEFAULT_CATEGORIES ++ userCustomNames st uid).dedup
  let sorted := List.insertionSort strLe all
  if "Otros" ∈ sorted then sorted.erase "Otros" ++ ["Otros"]
  else sorted ++ ["Otros"]

/-- Response of the category-creation endpoint: HTTP 400 (empty name),
409 (conflict) or 201 with the created name. -/
inductive CreateResp where
  | validation
  | conflict
  | ok (name : String)
deriving DecidableEq, Repr

/-- Response of the category-rename endpoint: HTTP 400, 404, or 200 with
the number of reassigned transactions. -/
inductive UpdateResp where
  | validation
  | notFound
  | ok (count : Nat)
deriving DecidableEq, Repr

/-- Response of the category-deletion endpoint: HTTP 400, 403, 404, or 200
with the deleted-record count and the reassigned-transaction count. -/
inductive DeleteResp where
  | validation
  | forbidden
  | notFound
  | ok (deleted : Nat) (reassigned : Nat)
deriving DecidableEq, Repr

/-- Embedding of `create_category` (src/app.py lines 100-125): normalize,
reject empty, reject a name already in `_get_user_categories`, otherwise
add one `{userId, name, createdAt}` document. Each operation returns its
HTTP response together with the store after the request. -/
def create_category (st : Store) (uid rawName : String) (now : Nat) :
    CreateResp × Store :=
  let name := normalize rawName
  if name = "" then (.validation, st)
  else if name ∈ listCategories st uid then (.conflict, st)
  else (.ok name, { st with categories := st.categories ++ [⟨uid, name, now⟩] })

/-- The `limit(1)` category-record update of src/app.py lines 147-155:
rename the first document matching `(userId, name)`; the boolean reports
whether one was found. -/
def updateFirstCat (cats : List CategoryRec) (uid oldName newName : String) :
    List CategoryRec × Bool :=
  match cats with
  | [] => ([], false)
  | c :: cs =>
      if c.userId == uid && c.name == oldName then
        ({ c with name := newName } :: cs, true)
      else
        let r := updateFirstCat cs uid oldName newName
        (c :: r.1, r.2)

/-- The transaction filter used by the rename and delete cascades:
documents matching `(userId, category)`. -/
def txMatches (uid name : String) (t : Transaction) : Bool :=
  t.userId == uid && t.category == name

/-- Embedding of `update_category` (src/app.py lines 133-176): normalize
both names, reject empties, rename the first matching category record,
404 when none was renamed and the old name is not a default, then batch
reassign every matching transaction and report the count. -/
def update_category (st : Store) (uid oldRaw newRaw : String) :
    UpdateResp × Store :=
  let oldName := normalize oldRaw
  let newName := normalize newRaw
  if oldName = "" || newName = "" then (.validation, st)
  else
    let r := updateFirstCat st.categories uid oldName newName
    if !r.2 && !(decide (oldName ∈ DEFAULT_CATEGORIES)) then
      (.notFound, { st with categories := r.1 })
    else
      (.ok (st.transactions.filter (txMatches uid oldName)).length,
        { st with
          categories := r.1,
          transactions := st.transactions.map (fun t =>
            if txMatches uid oldName t then { t with category := newName }
            else t) })

/-- The `limit(1)` category-record deletion of src/app.py lines 200-207:
delete the first document matching `(userId, name)`; the counter reports
how many documents were deleted (0 or 1). -/
def deleteFirstCat (cats : List CategoryRec) (uid name : String) :
    List CategoryRec × Nat :=
  match cats with
  | [] => ([], 0)
  | c :: cs =>
      if c.userId == uid && c.name == name then (cs, 1)
      else
        let r := deleteFirstCat cs uid name
        (c :: r.1, r.2)

/-- Embedding of `delete_category` (src/app.py lines 184-227): normalize,
reject empty, 403 for default categories, delete the first matching
record, 404 when none existed, then batch reassign every matching
transaction to the sentinel "Otros" and report both counts. -/
def delete_category (st : Store) (uid rawName : String) :
    DeleteResp × Store :=
  let name := normalize rawName
  if name = "" then (.validation, st)
  else if name ∈ DEFAULT_CATEGORIES then (.forbidden, st)
  else
    let r := deleteFirstCat st.categories uid name
    if r.2 = 0 then (.notFound, { st with categories := r.1 })
    else
      (.ok r.2 (st.transactions.filter (txMatches uid name)).length,
        { st with
          categories := r.1,
          transactions := st.transactions.map (fun t =>
            if txMatches uid name t then { t with category := "Otros" }
            else t) })

/-- First-match lookup in an association list, the reading discipline of a
Python dict whose keys are unique. -/
def alookup {α : Type} : List (String × α) → String → Option α
  | [], _ => none
  | (k, v) :: rest, key => if k == key then some v else alookup rest key

/-- Model of `d[k] += a` on a Python `defaultdict(float)`: bump the value
at the first occurrence of the key, appending a fresh entry (in insertion
order) when the key is absent. -/
def bumpAssoc : List (String × ℚ) → String → ℚ → List (String × ℚ)
  | [], k, a => [(k, a)]
  | (k0, v0) :: rest, k, a =>
      if k0 == k then (k0, v0 + a) :: rest
      else (k0, v0) :: bumpAssoc rest k a

/-- Model of `monthly_data[category][month_key] += amount` on the nested
`defaultdict(lambda: defaultdict(float))` of src/app.py line 483. -/
def addToData : List (String × List (String × ℚ)) → String → String → ℚ →
    List (String × List (String × ℚ))
  | [], c, k, a => [(c, [(k, a)])]
  | (c0, ms) :: rest, c, k, a =>
      if c0 == c then (c0, bumpAssoc ms k a) :: rest
      else (c0, ms) :: addToData rest c k a

/-- Model of `types_dict[category] = type` (src/app.py line 507): update
in place or append; the last write wins. -/
def setType : List (String × String) → String → String → List (String × String)
  | [], c, ty => [(c, ty)]
  | (c0, t0) :: rest, c, ty =>
      if c0 == c then (c0, ty) :: rest
      else (c0, t0) :: setType rest c ty

/-- Model of `date_obj.strftime("%Y-%m")` on an ISO "YYYY-MM-DD" date
string: its first 7 characters. -/
def monthKey (d : String) : String :=
  String.mk (d.data.take 7)

/-- The transaction types `monthly_report` keeps (src/app.py line 491). -/
def inclType (t : Transaction) : Bool :=
  t.txType == "expense" || t.txType == "income"

/-- One step of the aggregation loop of `monthly_report` (src/app.py
lines 486-507): skip foreign types, otherwise bump the month bucket of the
normalized category and record its last-seen type. -/
def mrStep (acc : List (String × List (String × ℚ)) × List (String × String))
    (t : Transaction) :
    List (String × List (String × ℚ)) × List (String × String) :=
  if inclType t then
    (addToData acc.1 (normalize t.category) (monthKey t.date) t.amount,
      setType acc.2 (normalize t.category) t.txType)
  else acc

/-- The `monthly_data` / `types_dict` pair built by the aggregation loop
of `monthly_report` over a transaction list. -/
def buildMonthly (txs : List Transaction) :
    List (String × List (String × ℚ)) × List (String × String) :=
  txs.foldl mrStep ([], [])

/-- The single-month padding of src/app.py lines 517-518: a trend with
exactly one point gets a synthetic leading zero. -/
def padTrend (l : List ℚ) : List ℚ :=
  match l with
  | [t] => [0, t]
  | _ => l

/-- One element of the `monthly_report` response (src/app.py
lines 520-525). -/
structure TrendEntry where
  category_name : String
  total_amount : ℚ
  monthly_trend : List ℚ
  txType : String
deriving DecidableEq, Repr

/-- The Firestore query of src/app.py lines 477-481: the user's
transactions. -/
def userTransactions (st : Store) (uid : String) : List Transaction :=
  st.transactions.filter (fun t => t.userId == uid)

/-- Embedding of the `monthly_report` endpoint body (src/app.py
lines 467-527): fold the user's transactions into per-category month
buckets, then emit, per category in first-seen order, the per-month sums
ordered by ascending month key, single-month trends padded with a leading
zero, the total as the sum of the (padded) trend, and the last-seen type
(defaulting to "expense"). -/
def monthly_report (st : Store) (uid : String) : List TrendEntry :=
  let built := buildMonthly (userTransactions st uid)
  built.1.map (fun p =>
    let sortedMonths := List.insertionSort strLe (p.2.map Prod.fst)
    let trend := padTrend (sortedMonths.map (fun m => (alookup p.2 m).getD 0))
    { category_name := p.1,
      total_amount := trend.sum,
      monthly_trend := trend,
      txType := (alookup built.2 p.1).getD "expense" })

/-- Response of `get_most_problematic_category` (src/app.py
lines 278-283). -/
structure ProblemCat where
  category : String
  current_spend : ℚ
  goal_amount : ℚ
  exceeds_goal : Bool
deriving DecidableEq, Repr

/-- Model of Python `max(d, key=d.get)` over the insertion-ordered totals
dict: the first entry attaining the maximal value (a later entry replaces
the current best only when strictly greater). -/
def argmaxAssoc : List (String × ℚ) → Option (String × ℚ)
  | [] => none
  | (c, v) :: rest =>
      match argmaxAssoc rest with
      | none => some (c, v)
      | some (c0, v0) => if v0 > v then some (c0, v0) else some (c, v)

/-- The Firestore query of src/app.py lines 253-257: the user's expense
transactions dated on or after the first day of the current month.
`curMonth` is the "YYYY-MM" key of the current month in the reference
timezone, so the query bound `start_of_month` is `curMonth ++ "-01"`. -/
def currentMonthExpenses (st : Store) (uid curMonth : String) :
    List Transaction :=
  st.transactions.filter (fun t =>
    t.userId == uid && t.txType == "expense" &&
      charListLe (curMonth ++ "-01").data t.date.data)

/-- The per-category expense totals dict of src/app.py lines 259-265. -/
def categoryTotals (txs : List Transaction) : List (String × ℚ) :=
  txs.foldl (fun acc t => bumpAssoc acc (normalize t.category) t.amount) []

/-- Embedding of `get_most_problematic_category` (src/app.py
lines 237-286). The store argument is the outcome of reading storage: a
failing read (`Except.error`) is the `except` branch at lines 284-286 and
yields the "Error" sentinel. On success: goal from the settings collection
(default 500.0), totals over the current-month expense query, the
first-attained maximal category ("Otros" with 0.0 spend when the dict is
empty), and `exceeds_goal` comparing that single spend to the goal. -/
def get_most_problematic_category (read : Except Unit Store)
    (uid curMonth : String) : ProblemCat :=
  match read with
  | .error _ => ⟨"Error", 0, 0, false⟩
  | .ok st =>
      let goal := (alookup st.goals uid).getD 500
      let totals := categoryTotals (currentMonthExpenses st uid curMonth)
      match argmaxAssoc totals with
      | none => ⟨"Otros", 0, goal, decide ((0 : ℚ) > goal)⟩
      | some (c, v) => ⟨c, v, goal, decide (v > goal)⟩

example : normalize " comida " = "Comida" := by decide
example : normalize "COMIDA" = "Comida" := by decide
example : normalize "  vIaJes de Lujo " = "Viajes De Lujo" := by decide
example : listCategories ⟨[], [], []⟩ "u" =
    ["Comida", "Entretenimiento", "Renta", "Servicios", "Transporte", "Otros"] := by
  decide

/-! ### Properties of the sorted, deduplicated category listing -/

/-- The sorted deduplicated union computed inside `listCategories` before
the sentinel is forced to the end. -/
def sortedUnion (st : Store) (uid : String) : List String :=
  List.insertionSort strLe (DEFAULT_CATEGORIES ++ userCustomNames st uid).dedup

theorem sortedUnion_sorted (st : Store) (uid : String) :
    (sortedUnion st uid).Sorted strLe :=
  List.sorted_insertionSort strLe _

theorem sortedUnion_nodup (st : Store) (uid : String) :
    (sortedUnion st uid).Nodup := by
  rw [sortedUnion]
  exact ((List.perm_insertionSort strLe _).nodup_iff).mpr (List.nodup_dedup _)

theorem mem_sortedUnion (st : Store) (uid : String) (x : String) :
    x ∈ sortedUnion st uid ↔
      x ∈ DEFAULT_CATEGORIES ∨ x ∈ userCustomNames st uid := by
  rw [sortedUnion, (List.perm_insertionSort strLe _).mem_iff, List.mem_dedup,
    List.mem_append]

theorem listCategories_eq (st : Store) (uid : String) :
    listCategories st uid =
      (if "Otros" ∈ sortedUnion st uid then
        (sortedUnion st uid).erase "Otros" else sortedUnion st uid) ++
        ["Otros"] := by
  rw [listCategories, sortedUnion]
  split <;> rfl

theorem listCategories_getLast (st : Store) (uid : String) :
    (listCategories st uid).getLast? = some "Otros" := by
  rw [listCategories_eq]
  exact List.getLast?_concat _

theorem listCategories_nodup (st : Store) (uid : String) :
    (listCategories st uid).Nodup := by
  rw [listCategories_eq]
  split
  · rename_i h
    have hn := (sortedUnion_nodup st uid).erase "Otros"
    have hno : "Otros" ∉ (sortedUnion st uid).erase "Otros" := by
      rw [(sortedUnion_nodup st uid).mem_erase_iff]
      simp
    simp [List.nodup_append, hn, hno]
  · rename_i h
    simp [List.nodup_append, sortedUnion_nodup st uid, h]

theorem listCategories_dropLast_sorted (st : Store) (uid : String) :
    ((listCategories st uid).dropLast).Sorted strLe := by
  rw [listCategories_eq, List.dropLast_concat]
  split
  · exact List.Pairwise.sublist (List.erase_sublist _ _)
      (sortedUnion_sorted st uid)
  · exact sortedUnion_sorted st uid

theorem mem_listCategories (st : Store) (uid : String) (x : String) :
    x ∈ listCategories st uid ↔
      x ∈ DEFAULT_CATEGORIES ∨ x ∈ userCustomNames st uid ∨ x = "Otros" := by
  rw [listCategories_eq]
  split
  · rename_i h
    rw [List.mem_append, (sortedUnion_nodup st uid).mem_erase_iff,
      mem_sortedUnion]
    constructor
    · rintro (⟨-, hx | hx⟩ | hx) <;> simp_all
    · rw [← mem_sortedUnion st uid x]
      rintro hx
      rcases eq_or_ne x "Otros" with rfl | hne
      · simp
      · rcases hx with hx | hx | hx <;>
          simp_all [mem_sortedUnion, (sortedUnion_nodup st uid).mem_erase_iff]
  · rw [List.mem_append, mem_sortedUnion]
    simp [or_assoc]

theorem defaults_normalized :
    ∀ n ∈ DEFAULT_CATEGORIES, normalize n = n := by decide

theorem otros_normalized : normalize "Otros" = "Otros" := by decide

theorem defaults_nonempty : ∀ n ∈ DEFAULT_CATEGORIES, n ≠ "" := by decide

/-- When every stored custom name is a fixed point of `normalize`
(which is how `create_category` and `update_category` store them), every
element of the listing is a fixed point of `normalize`. -/
theorem listCategories_normalized (st : Store) (uid : String)
    (h : ∀ c ∈ st.categories, normalize c.name = c.name) :
    ∀ x ∈ listCategories st uid, normalize x = x := by
  intro x hx
  rcases (mem_listCategories st uid x).mp hx with hd | hc | rfl
  · exact defaults_normalized x hd
  · rcases List.mem_filter.mp hc with ⟨hm, -⟩
    rcases List.mem_map.mp hm with ⟨c, hcm, rfl⟩
    exact h c (List.mem_filter.mp hcm).1
  · exact otros_normalized

/-- Claim C1: for every user and storage snapshot (storage available), the
sequence returned by listCategories ends with the sentinel "Otros" as its
last element, contains no duplicate names, and all elements before "Otros"
are sorted ascending (in Python string order, modelled by `strLe`). -/
theorem c1_listCategories_invariant (st : Store) (uid : String) :
    (listCategories st uid).getLast? = some "Otros" ∧
    (listCategories st uid).Nodup ∧
    ((listCategories st uid).dropLast).Sorted strLe :=
  ⟨listCategories_getLast st uid, listCategories_nodup st uid,
    listCategories_dropLast_sorted st uid⟩

/-! ### Helper lemmas for the mutation operations -/

theorem forall₂_map_self {α : Type} (l : List α) (R : α → α → Prop)
    (f : α → α) (h : ∀ a ∈ l, R a (f a)) : List.Forall₂ R l (l.map f) := by
  induction l with
  | nil => constructor
  | cons a l ih =>
      exact List.Forall₂.cons (h a (by simp))
        (ih (fun a ha => h a (by simp [ha])))

theorem updateFirstCat_found (cats : List CategoryRec)
    (uid oldName newName : String) :
    (updateFirstCat cats uid oldName newName).2 = true ↔
      ∃ c ∈ cats, c.userId = uid ∧ c.name = oldName := by
  induction cats with
  | nil => simp [updateFirstCat]
  | cons c cs ih =>
      simp only [updateFirstCat]
      split
      · rename_i h
        simp only [Bool.and_eq_true, beq_iff_eq] at h
        simp [h.1, h.2]
      · rename_i h
        simp only [Bool.and_eq_true, beq_iff_eq, not_and] at h
        simp only [List.mem_cons, exists_eq_or_imp]
        rw [ih]
        constructor
        · exact Or.inr
        · rintro (⟨h1, h2⟩ | hx)
          · exact absurd h2 (h h1)
          · exact hx

theorem deleteFirstCat_snd (cats : List CategoryRec) (uid name : String) :
    (deleteFirstCat cats uid name).2 =
      if ∃ c ∈ cats, c.userId = uid ∧ c.name = name then 1 else 0 := by
  induction cats with
  | nil => simp [deleteFirstCat]
  | cons c cs ih =>
      simp only [deleteFirstCat]
      split
      · rename_i h
        simp only [Bool.and_eq_true, beq_iff_eq] at h
        rw [if_pos (show ∃ d ∈ c :: cs, d.userId = uid ∧ d.name = name from
          ⟨c, by simp, h.1, h.2⟩)]
      · rename_i h
        simp only [Bool.and_eq_true, beq_iff_eq, not_and] at h
        rw [ih]
        by_cases hex : ∃ c ∈ cs, c.userId = uid ∧ c.name = name
        · obtain ⟨d, hd, hd1, hd2⟩ := hex
          rw [if_pos (show ∃ x ∈ cs, x.userId = uid ∧ x.name = name from
              ⟨d, hd, hd1, hd2⟩),
            if_pos (show ∃ x ∈ c :: cs, x.userId = uid ∧ x.name = name from
              ⟨d, List.mem_cons_of_mem c hd, hd1, hd2⟩)]
        · rw [if_neg hex]
          rw [if_neg]
          rintro ⟨d, hd, h1, h2⟩
          rcases List.mem_cons.mp hd with rfl | hd'
          · exact (h h1) h2
          · exact hex ⟨d, hd', h1, h2⟩

theorem deleteFirstCat_fst_of_not_found (cats : List CategoryRec)
    (uid name : String)
    (h : ¬ ∃ c ∈ cats, c.userId = uid ∧ c.name = name) :
    (deleteFirstCat cats uid name).1 = cats := by
  induction cats with
  | nil => rfl
  | cons c cs ih =>
      simp only [deleteFirstCat]
      split
      · rename_i hc
        simp only [Bool.and_eq_true, beq_iff_eq] at hc
        exact absurd ⟨c, by simp, hc.1, hc.2⟩ h
      · rw [ih (fun ⟨d, hd, h1, h2⟩ => h ⟨d, by simp [hd], h1, h2⟩)]

/-! ### Claim C2 -/

/-- Counterexample to claim C2: with a stored custom name "comida  "
(unnormalized), listCategories returns it exactly as stored alongside the
default "Comida", so two entries share the normalized form "Comida" — the
fetched name is not normalized before being added, contradicting the
claim. -/
theorem c2_counterexample :
    "comida  " ∈ listCategories ⟨[⟨"u", "comida  ", 0⟩], [], []⟩ "u" ∧
    normalize "comida  " ≠ "comida  " ∧
    ¬ ((listCategories ⟨[⟨"u", "comida  ", 0⟩], [], []⟩ "u").map
        normalize).Nodup := by
  decide

/-- Claim C2 (amended): listCategories adds each fetched custom-category
name to the union exactly as stored, without normalizing it; when every
stored custom name is already normalized — which is how `create_category`
and `update_category` persist them — no two entries of the result share a
normalized form. -/
theorem c2_listCategories_stored_names (st : Store) (uid : String)
    (h : ∀ c ∈ st.categories, normalize c.name = c.name) :
    (∀ n ∈ userCustomNames st uid, n ∈ listCategories st uid) ∧
    ((listCategories st uid).map normalize).Nodup := by
  constructor
  · intro n hn
    exact (mem_listCategories st uid n).mpr (Or.inr (Or.inl hn))
  · have hmap : (listCategories st uid).map normalize =
        listCategories st uid := by
      conv_rhs => rw [← List.map_id (listCategories st uid)]
      exact List.map_congr_left (listCategories_normalized st uid h)
    rw [hmap]
    exact listCategories_nodup st uid

/-- Witness for the amended claim C2 at a concrete store holding one
normalized custom category. -/
theorem c2_listCategories_stored_names_witness :
    (∀ n ∈ userCustomNames ⟨[⟨"u", "Viajes", 0⟩], [], []⟩ "u",
      n ∈ listCategories ⟨[⟨"u", "Viajes", 0⟩], [], []⟩ "u") ∧
    ((listCategories ⟨[⟨"u", "Viajes", 0⟩], [], []⟩ "u").map
      normalize).Nodup :=
  c2_listCategories_stored_names ⟨[⟨"u", "Viajes", 0⟩], [], []⟩ "u"
    (by decide)

/-! ### Claim C3 -/

/-- Counterexample to claim C3 as stated: both normalized names are
non-empty, a transaction of the user carries the old category, yet the
rename returns 404 (the old name matches no stored category record and is
not a default) and the transaction keeps its category — no reassignment
and no count happen. -/
theorem c3_counterexample :
    normalize "Viajes" ≠ "" ∧ normalize "Paseos" ≠ "" ∧
    (update_category ⟨[], [⟨"u", "expense", 5, "Viajes", "z", "2024-03-10"⟩],
        []⟩ "u" "Viajes" "Paseos").1 = UpdateResp.notFound ∧
    ((update_category ⟨[], [⟨"u", "expense", 5, "Viajes", "z", "2024-03-10"⟩],
        []⟩ "u" "Viajes" "Paseos").2).transactions =
      [⟨"u", "expense", 5, "Viajes", "z", "2024-03-10"⟩] := by
  decide

/-- Claim C3 (amended): for every user and every pair of names whose
normalized forms are non-empty, provided the old name matches a stored
category record of the user or is a default category (otherwise the
operation fails with NotFoundError and reassigns nothing), rename
reassigns every transaction with (userId, category == normalized oldName)
to the normalized newName, leaves every other transaction unchanged, and
the count it returns equals the number of such transactions before the
call. -/
theorem c3_update_category_reassigns (st : Store) (uid oldRaw newRaw : String)
    (h1 : normalize oldRaw ≠ "") (h2 : normalize newRaw ≠ "")
    (h3 : (∃ c ∈ st.categories, c.userId = uid ∧ c.name = normalize oldRaw) ∨
      normalize oldRaw ∈ DEFAULT_CATEGORIES) :
    (update_category st uid oldRaw newRaw).1 =
      UpdateResp.ok
        ((st.transactions.filter (txMatches uid (normalize oldRaw))).length) ∧
    List.Forall₂ (fun t u =>
        if txMatches uid (normalize oldRaw) t then
          u = { t with category := normalize newRaw }
        else u = t)
      st.transactions ((update_category st uid oldRaw newRaw).2).transactions := by
  have hfalse : (!(updateFirstCat st.categories uid (normalize oldRaw)
      (normalize newRaw)).2 &&
      !decide (normalize oldRaw ∈ DEFAULT_CATEGORIES)) = false := by
    rcases h3 with hex | hdef
    · have hf : (updateFirstCat st.categories uid (normalize oldRaw)
          (normalize newRaw)).2 = true :=
        (updateFirstCat_found st.categories uid (normalize oldRaw)
          (normalize newRaw)).mpr hex
      simp [hf]
    · simp [hdef]
  simp only [update_category]
  rw [if_neg (by simp [h1, h2]), if_neg (by simp [hfalse])]
  refine ⟨rfl, ?_⟩
  exact forall₂_map_self _ _ _ (fun t _ => by split <;> rfl)

/-- Witness for the amended claim C3 at the spec's own example: renaming
the default category "Comida" to "Alimentos" with one matching
transaction returns count 1 and reassigns it. -/
theorem c3_update_category_reassigns_witness :
    (update_category ⟨[], [⟨"u", "expense", 5, "Comida", "z", "2024-03-10"⟩],
        []⟩ "u" "Comida" "Alimentos").1 = UpdateResp.ok 1 ∧
    ((update_category ⟨[], [⟨"u", "expense", 5, "Comida", "z", "2024-03-10"⟩],
        []⟩ "u" "Comida" "Alimentos").2).transactions =
      [⟨"u", "expense", 5, "Alimentos", "z", "2024-03-10"⟩] := by
  have h := c3_update_category_reassigns
    ⟨[], [⟨"u", "expense", 5, "Comida", "z", "2024-03-10"⟩], []⟩
    "u" "Comida" "Alimentos" (by decide) (by decide) (Or.inr (by decide))
  refine ⟨?_, by decide⟩
  rw [h.1]
  decide

/-! ### Claim C4 -/

/-- Claim C4: for every user and every non-default custom category with a
persisted record, delete removes that one category record, reassigns every
transaction with (userId, category == name) to the sentinel "Otros",
leaves every other transaction unchanged, and returns deletedCount = 1
together with the number of such transactions. -/
theorem deleteFirstCat_length (cats : List CategoryRec) (uid name : String)
    (h : ∃ c ∈ cats, c.userId = uid ∧ c.name = name) :
    (deleteFirstCat cats uid name).1.length + 1 = cats.length := by
  induction cats with
  | nil => simp at h
  | cons c cs ih =>
      simp only [deleteFirstCat]
      split
      · simp
      · rename_i hcond
        simp only [Bool.and_eq_true, beq_iff_eq, not_and] at hcond
        have h' : ∃ d ∈ cs, d.userId = uid ∧ d.name = name := by
          obtain ⟨d, hd, hd1, hd2⟩ := h
          rcases List.mem_cons.mp hd with rfl | hd'
          · exact absurd hd2 (hcond hd1)
          · exact ⟨d, hd', hd1, hd2⟩
        have := ih h'
        simp only [List.length_cons]
        omega

theorem c4_delete_category_cascades (st : Store) (uid rawName : String)
    (h1 : normalize rawName ≠ "")
    (h2 : normalize rawName ∉ DEFAULT_CATEGORIES)
    (h3 : ∃ c ∈ st.categories, c.userId = uid ∧ c.name = normalize rawName) :
    (delete_category st uid rawName).1 =
      DeleteResp.ok 1
        ((st.transactions.filter (txMatches uid (normalize rawName))).length) ∧
    ((delete_category st uid rawName).2).categories.length + 1 =
      st.categories.length ∧
    List.Forall₂ (fun t u =>
        if txMatches uid (normalize rawName) t then
          u = { t with category := "Otros" }
        else u = t)
      st.transactions ((delete_category st uid rawName).2).transactions := by
  have hsnd : (deleteFirstCat st.categories uid (normalize rawName)).2 = 1 := by
    rw [deleteFirstCat_snd, if_pos h3]
  rw [delete_category]
  rw [if_neg h1, if_neg h2, if_neg (by rw [hsnd]; exact one_ne_zero), hsnd]
  refine ⟨rfl, ?_, ?_⟩
  · exact deleteFirstCat_length st.categories uid (normalize rawName) h3
  · exact forall₂_map_self _ _ _ (fun t _ => by split <;> rfl)

/-- Witness for claim C4 at the spec's own example: deleting the custom
category "Viajes" with three matching transactions yields
deletedCount = 1, reassignedCount = 3, and those transactions end with
category "Otros". -/
theorem c4_delete_category_cascades_witness :
    (delete_category ⟨[⟨"u", "Viajes", 0⟩],
        [⟨"u", "expense", 5, "Viajes", "a", "2024-03-10"⟩,
         ⟨"u", "income", 7, "Viajes", "b", "2024-04-10"⟩,
         ⟨"u", "expense", 5, "Viajes", "c", "2024-05-10"⟩], []⟩
      "u" "Viajes").1 = DeleteResp.ok 1 3 ∧
    ((delete_category ⟨[⟨"u", "Viajes", 0⟩],
        [⟨"u", "expense", 5, "Viajes", "a", "2024-03-10"⟩,
         ⟨"u", "income", 7, "Viajes", "b", "2024-04-10"⟩,
         ⟨"u", "expense", 5, "Viajes", "c", "2024-05-10"⟩], []⟩
      "u" "Viajes").2).transactions =
      [⟨"u", "expense", 5, "Otros", "a", "2024-03-10"⟩,
       ⟨"u", "income", 7, "Otros", "b", "2024-04-10"⟩,
       ⟨"u", "expense", 5, "Otros", "c", "2024-05-10"⟩] := by
  have h := c4_delete_category_cascades
    ⟨[⟨"u", "Viajes", 0⟩],
      [⟨"u", "expense", 5, "Viajes", "a", "2024-03-10"⟩,
       ⟨"u", "income", 7, "Viajes", "b", "2024-04-10"⟩,
       ⟨"u", "expense", 5, "Viajes", "c", "2024-05-10"⟩], []⟩
    "u" "Viajes" (by decide) (by decide)
    ⟨⟨"u", "Viajes", 0⟩, by simp, rfl, by decide⟩
  refine ⟨?_, by decide⟩
  rw [h.1]
  decide

/-! ### Claim C7 -/

/-- Claim C7: create fails with ValidationError when the normalized name
is empty, fails with ConflictError persisting nothing when the normalized
name is already listed — including, when stored names are normalized as
the write paths guarantee, any raw name differing from a listed one only
in case or whitespace — and otherwise persists exactly one record
{userId, name, createdAt = now} with the normalized name. -/
theorem c7_create_category_validates (st : Store) (uid rawName : String)
    (now : Nat) :
    (normalize rawName = "" →
      create_category st uid rawName now = (CreateResp.validation, st)) ∧
    (normalize rawName ≠ "" → normalize rawName ∈ listCategories st uid →
      create_category st uid rawName now = (CreateResp.conflict, st)) ∧
    (normalize rawName ≠ "" → normalize rawName ∉ listCategories st uid →
      create_category st uid rawName now =
        (CreateResp.ok (normalize rawName),
          { st with categories :=
              st.categories ++ [⟨uid, normalize rawName, now⟩] })) ∧
    ((∀ c ∈ st.categories, normalize c.name = c.name) →
      normalize rawName ≠ "" →
      (∃ e ∈ listCategories st uid, normalize e = normalize rawName) →
      create_category st uid rawName now = (CreateResp.conflict, st)) := by
  refine ⟨?_, ?_, ?_, ?_⟩
  · intro h
    simp only [create_category]
    rw [if_pos h]
  · intro h1 h2
    simp only [create_category]
    rw [if_neg h1, if_pos h2]
  · intro h1 h2
    simp only [create_category]
    rw [if_neg h1, if_neg h2]
  · intro hnorm h1 ⟨e, he, hee⟩
    have : e = normalize rawName := by
      rw [← hee]
      exact (listCategories_normalized st uid hnorm e he).symm
    simp only [create_category]
    rw [if_neg h1, if_pos (this ▸ he)]

/-- Witness for claim C7: creating "  viajes  " when "Viajes" is already
stored (a name differing only in case and whitespace) is a conflict and
persists nothing. -/
theorem c7_create_category_validates_witness :
    create_category ⟨[⟨"u", "Viajes", 0⟩], [], []⟩ "u" "  viajes  " 5 =
      (CreateResp.conflict, ⟨[⟨"u", "Viajes", 0⟩], [], []⟩) :=
  (c7_create_category_validates ⟨[⟨"u", "Viajes", 0⟩], [], []⟩
      "u" "  viajes  " 5).2.2.2 (by decide) (by decide)
    ⟨"Viajes", by decide, by decide⟩

/-! ### Claim C8 -/

/-- Claim C8: deleting a name whose normalized form is a default category
fails with ForbiddenError and performs no storage mutation: the store
after the request is the store before it. -/
theorem c8_delete_default_forbidden (st : Store) (uid rawName : String)
    (h : normalize rawName ∈ DEFAULT_CATEGORIES) :
    delete_category st uid rawName = (DeleteResp.forbidden, st) := by
  simp only [delete_category]
  rw [if_neg (defaults_nonempty _ h), if_pos h]

/-- Witness for claim C8: deleting " comida " (normalizing to the default
"Comida") on a populated store is forbidden and mutates nothing. -/
theorem c8_delete_default_forbidden_witness :
    delete_category ⟨[⟨"u", "Viajes", 0⟩],
        [⟨"u", "expense", 5, "Comida", "z", "2024-03-10"⟩], []⟩
      "u" " comida " =
      (DeleteResp.forbidden, ⟨[⟨"u", "Viajes", 0⟩],
        [⟨"u", "expense", 5, "Comida", "z", "2024-03-10"⟩], []⟩) :=
  c8_delete_default_forbidden
    ⟨[⟨"u", "Viajes", 0⟩],
      [⟨"u", "expense", 5, "Comida", "z", "2024-03-10"⟩], []⟩
    "u" " comida " (by decide)

/-! ### Claim C10 -/

/-- Claim C10: for a non-empty normalized name outside the default set,
when no custom-category record matches (userId, name) the deletion returns
NotFoundError before the reassignment step, and the store — in particular
every transaction's category — is unchanged. -/
theorem c10_delete_not_found (st : Store) (uid rawName : String)
    (h1 : normalize rawName ≠ "")
    (h2 : normalize rawName ∉ DEFAULT_CATEGORIES)
    (h3 : ¬ ∃ c ∈ st.categories, c.userId = uid ∧
      c.name = normalize rawName) :
    delete_category st uid rawName = (DeleteResp.notFound, st) := by
  simp only [delete_category]
  rw [if_neg h1, if_neg h2]
  rw [if_pos (by rw [deleteFirstCat_snd, if_neg h3]),
    deleteFirstCat_fst_of_not_found st.categories uid (normalize rawName) h3]

/-- Witness for claim C10: deleting the unknown custom name "Viajes" on a
store with no matching record 404s and leaves the store — transactions
included — untouched. -/
theorem c10_delete_not_found_witness :
    delete_category ⟨[⟨"u", "Ropa", 0⟩, ⟨"v", "Viajes", 0⟩],
        [⟨"u", "expense", 5, "Viajes", "z", "2024-03-10"⟩], []⟩
      "u" "Viajes" =
      (DeleteResp.notFound, ⟨[⟨"u", "Ropa", 0⟩, ⟨"v", "Viajes", 0⟩],
        [⟨"u", "expense", 5, "Viajes", "z", "2024-03-10"⟩], []⟩) :=
  c10_delete_not_found
    ⟨[⟨"u", "Ropa", 0⟩, ⟨"v", "Viajes", 0⟩],
      [⟨"u", "expense", 5, "Viajes", "z", "2024-03-10"⟩], []⟩
    "u" "Viajes" (by decide) (by decide) (by decide)

/-! ### Claim C9 -/

/-- Claim C9: when the storage read inside the problematic-category
computation fails, the operation returns the "Error" sentinel with zero
spend, zero goal and exceedsGoal = false instead of propagating the
error. -/
theorem c9_gmpc_degrades_on_storage_error (uid curMonth : String) :
    get_most_problematic_category (Except.error ()) uid curMonth =
      ⟨"Error", 0, 0, false⟩ :=
  rfl

/-! ### Association-list and fold lemmas for the aggregations -/

theorem alookup_bumpAssoc (ms : List (String × ℚ)) (k : String) (a : ℚ)
    (q : String) :
    alookup (bumpAssoc ms k a) q =
      if q = k then some ((alookup ms k).getD 0 + a) else alookup ms q := by
  induction ms with
  | nil =>
      by_cases h : q = k
      · subst h; simp [bumpAssoc, alookup]
      · simp [bumpAssoc, alookup, h, Ne.symm h]
  | cons p rest ih =>
      obtain ⟨k0, v0⟩ := p
      by_cases hk : k0 = k
      · subst hk
        by_cases hq : q = k0
        · subst hq
          simp [bumpAssoc, alookup]
        · simp [bumpAssoc, alookup, hq, Ne.symm hq]
      · by_cases hq : q = k0
        · subst hq
          simp [bumpAssoc, alookup, hk, Ne.symm hk]
        · by_cases hqk : q = k
          · subst hqk
            simp [bumpAssoc, alookup, hk, Ne.symm hk, Ne.symm hq, ih]
          · simp [bumpAssoc, alookup, hk, Ne.symm hk, Ne.symm hq, hqk, ih]

theorem alookup_isSome_iff {α : Type} (l : List (String × α)) (k : String) :
    (alookup l k).isSome = true ↔ k ∈ l.map Prod.fst := by
  induction l with
  | nil => simp [alookup]
  | cons p rest ih =>
      obtain ⟨k0, v0⟩ := p
      by_cases h : k0 = k
      · subst h
        simp [alookup]
      · simp only [alookup, if_neg (fun hh : (k0 == k) = true =>
          h (beq_iff_eq.mp hh)), List.map_cons, List.mem_cons]
        rw [ih]
        constructor
        · exact Or.inr
        · rintro (rfl | hx)
          · exact absurd rfl h
          · exact hx

theorem alookup_of_mem_nodup {α : Type} (l : List (String × α))
    (p : String × α) (hn : (l.map Prod.fst).Nodup) (hp : p ∈ l) :
    alookup l p.1 = some p.2 := by
  induction l with
  | nil => simp at hp
  | cons q rest ih =>
      obtain ⟨k0, v0⟩ := q
      rcases List.mem_cons.mp hp with rfl | hp'
      · simp [alookup]
      · have hk : k0 ≠ p.1 := by
          intro hh
          have : p.1 ∈ rest.map Prod.fst :=
            List.mem_map.mpr ⟨p, hp', rfl⟩
          rw [← hh] at this
          exact (List.nodup_cons.mp hn).1 this
        simp only [alookup, if_neg (fun hh : (k0 == p.1) = true =>
          hk (beq_iff_eq.mp hh))]
        exact ih (List.nodup_cons.mp hn).2 hp'

theorem mem_of_alookup_eq_some {α : Type} (l : List (String × α))
    (k : String) (v : α) (h : alookup l k = some v) : (k, v) ∈ l := by
  induction l with
  | nil => simp [alookup] at h
  | cons q rest ih =>
      obtain ⟨k0, v0⟩ := q
      by_cases hk : k0 = k
      · subst hk
        simp only [alookup, if_pos (beq_iff_eq.mpr rfl),
          Option.some.injEq] at h
        subst h
        exact List.mem_cons_self _ _
      · simp only [alookup, if_neg (fun hh : (k0 == k) = true =>
          hk (beq_iff_eq.mp hh))] at h
        exact List.mem_cons_of_mem _ (ih h)

theorem keys_bumpAssoc (ms : List (String × ℚ)) (k : String) (a : ℚ) :
    (bumpAssoc ms k a).map Prod.fst =
      if k ∈ ms.map Prod.fst then ms.map Prod.fst
      else ms.map Prod.fst ++ [k] := by
  induction ms with
  | nil => simp [bumpAssoc]
  | cons p rest ih =>
      obtain ⟨k0, v0⟩ := p
      by_cases hk : k0 = k
      · subst hk
        simp [bumpAssoc]
      · simp only [bumpAssoc, if_neg (fun hh : (k0 == k) = true =>
          hk (beq_iff_eq.mp hh)), List.map_cons]
        rw [ih]
        by_cases hm : k ∈ rest.map Prod.fst
        · rw [if_pos hm, if_pos (List.mem_cons_of_mem _ hm)]
        · rw [if_neg hm, if_neg (by
            intro hh
            rcases List.mem_cons.mp hh with hh' | hh'
            · exact hk hh'.symm
            · exact hm hh'), List.cons_append]

/-- The per-category expense total a transaction list induces, the
specification-side reading of the totals dict of
`get_most_problematic_category`. -/
def catSpend (txs : List Transaction) (c : String) : ℚ :=
  ((txs.filter (fun t => normalize t.category == c)).map
    Transaction.amount).sum

theorem totalsFold_getD (txs : List Transaction)
    (acc : List (String × ℚ)) (c : String) :
    (alookup (txs.foldl
        (fun a t => bumpAssoc a (normalize t.category) t.amount) acc)
      c).getD 0 = (alookup acc c).getD 0 + catSpend txs c := by
  induction txs generalizing acc with
  | nil => simp [catSpend]
  | cons t rest ih =>
      rw [List.foldl_cons, ih]
      rw [alookup_bumpAssoc]
      by_cases hc : c = normalize t.category
      · rw [if_pos hc]
        have : catSpend (t :: rest) c = t.amount + catSpend rest c := by
          simp [catSpend, List.filter_cons, beq_iff_eq, hc.symm]
        rw [this, Option.getD_some, hc]
        ring
      · rw [if_neg hc]
        have hsame : catSpend (t :: rest) c = catSpend rest c := by
          simp only [catSpend, List.filter_cons]
          rw [if_neg (by
            intro hh
            exact hc (beq_iff_eq.mp hh).symm)]
        rw [hsame]

theorem totalsFold_isSome (txs : List Transaction)
    (acc : List (String × ℚ)) (c : String) :
    (alookup (txs.foldl
        (fun a t => bumpAssoc a (normalize t.category) t.amount) acc)
      c).isSome = true ↔
      (alookup acc c).isSome = true ∨
        ∃ t ∈ txs, normalize t.category = c := by
  induction txs generalizing acc with
  | nil => simp
  | cons t rest ih =>
      rw [List.foldl_cons, ih]
      rw [alookup_bumpAssoc]
      by_cases hc : c = normalize t.category
      · simp [hc]
      · rw [if_neg hc]
        simp only [List.mem_cons]
        constructor
        · rintro (hx | ⟨u, hu, hnu⟩)
          · exact Or.inl hx
          · exact Or.inr ⟨u, Or.inr hu, hnu⟩
        · rintro (hx | ⟨u, rfl | hu, hnu⟩)
          · exact Or.inl hx
          · exact absurd hnu.symm hc
          · exact Or.inr ⟨u, hu, hnu⟩

theorem totalsFold_keys_nodup (txs : List Transaction)
    (acc : List (String × ℚ)) (hn : (acc.map Prod.fst).Nodup) :
    ((txs.foldl
        (fun a t => bumpAssoc a (normalize t.category) t.amount)
      acc).map Prod.fst).Nodup := by
  induction txs generalizing acc with
  | nil => exact hn
  | cons t rest ih =>
      rw [List.foldl_cons]
      refine ih _ ?_
      rw [keys_bumpAssoc]
      by_cases hm : normalize t.category ∈ acc.map Prod.fst
      · rw [if_pos hm]; exact hn
      · rw [if_neg hm]
        simp [List.nodup_append, hn, hm]

theorem argmaxAssoc_eq_none (l : List (String × ℚ)) :
    argmaxAssoc l = none ↔ l = [] := by
  cases l with
  | nil => simp [argmaxAssoc]
  | cons p rest =>
      simp only [argmaxAssoc]
      cases argmaxAssoc rest with
      | none => simp
      | some q =>
          obtain ⟨c0, v0⟩ := q
          by_cases h : v0 > p.2 <;> simp [h]

theorem argmaxAssoc_mem (l : List (String × ℚ)) (p : String × ℚ)
    (h : argmaxAssoc l = some p) : p ∈ l := by
  induction l generalizing p with
  | nil => simp [argmaxAssoc] at h
  | cons q rest ih =>
      obtain ⟨c, v⟩ := q
      cases hrec : argmaxAssoc rest with
      | none =>
          have h' : argmaxAssoc ((c, v) :: rest) = some (c, v) := by
            simp [argmaxAssoc, hrec]
          rw [h'] at h
          simp only [Option.some.injEq] at h
          subst h
          exact List.mem_cons_self _ _
      | some q0 =>
          obtain ⟨c0, v0⟩ := q0
          have h' : argmaxAssoc ((c, v) :: rest) =
              if v0 > v then some (c0, v0) else some (c, v) := by
            simp [argmaxAssoc, hrec]
          rw [h'] at h
          by_cases hgt : v0 > v
          · rw [if_pos hgt] at h
            simp only [Option.some.injEq] at h
            subst h
            exact List.mem_cons_of_mem _ (ih _ hrec)
          · rw [if_neg hgt] at h
            simp only [Option.some.injEq] at h
            subst h
            exact List.mem_cons_self _ _

theorem argmaxAssoc_ge (l : List (String × ℚ)) (p : String × ℚ)
    (h : argmaxAssoc l = some p) : ∀ q ∈ l, q.2 ≤ p.2 := by
  induction l generalizing p with
  | nil => simp [argmaxAssoc] at h
  | cons q0 rest ih =>
      obtain ⟨c, v⟩ := q0
      intro q hq
      cases hrec : argmaxAssoc rest with
      | none =>
          have hrest : rest = [] := (argmaxAssoc_eq_none rest).mp hrec
          subst hrest
          have h' : argmaxAssoc [(c, v)] = some (c, v) := by
            simp [argmaxAssoc]
          rw [h'] at h
          simp only [Option.some.injEq] at h
          subst h
          rcases List.mem_cons.mp hq with rfl | hq'
          · exact le_refl _
          · simp at hq'
      | some q1 =>
          obtain ⟨c1, v1⟩ := q1
          have h' : argmaxAssoc ((c, v) :: rest) =
              if v1 > v then some (c1, v1) else some (c, v) := by
            simp [argmaxAssoc, hrec]
          rw [h'] at h
          by_cases hgt : v1 > v
          · rw [if_pos hgt] at h
            simp only [Option.some.injEq] at h
            subst h
            rcases List.mem_cons.mp hq with rfl | hq'
            · exact le_of_lt hgt
            · exact ih _ hrec q hq'
          · rw [if_neg hgt] at h
            simp only [Option.some.injEq] at h
            subst h
            rcases List.mem_cons.mp hq with rfl | hq'
            · exact le_refl _
            · exact le_trans (ih _ hrec q hq') (not_lt.mp hgt)

/-! ### Claim C6 -/

theorem categoryTotals_getD (txs : List Transaction) (c : String) :
    (alookup (categoryTotals txs) c).getD 0 = catSpend txs c := by
  rw [categoryTotals, totalsFold_getD]
  simp [alookup]

theorem categoryTotals_isSome (txs : List Transaction) (c : String) :
    (alookup (categoryTotals txs) c).isSome = true ↔
      ∃ t ∈ txs, normalize t.category = c := by
  rw [categoryTotals, totalsFold_isSome]
  simp [alookup]

theorem categoryTotals_keys_nodup (txs : List Transaction) :
    ((categoryTotals txs).map Prod.fst).Nodup :=
  totalsFold_keys_nodup txs [] (by simp)

/-- Counterexample to claim C6 as stated: with a stored monthly goal of -1
and no transactions at all, the code returns exceedsGoal = true (it always
computes `max_spend > goal`, here `0 > -1`), where the claim promises
exceedsGoal = false whenever the user has no current-month expenses. -/
theorem c6_counterexample :
    (⟨[], [], [("u", -1)]⟩ : Store).transactions = [] ∧
    get_most_problematic_category (Except.ok ⟨[], [], [("u", -1)]⟩)
        "u" "2025-10" =
      ⟨"Otros", 0, -1, true⟩ := by
  constructor
  · rfl
  · rfl

/-- Claim C6 (amended): mostProblematicCategory takes the user's goal
(default 500), sums the filtered expense amounts per normalized category,
returns a category attaining the maximal sum together with that sum, and
sets exceedsGoal = (spend > goal) — comparing only that single
category's spend against the goal. With no matching expense transactions
the category is "Otros" with spend 0.0, so exceedsGoal = (0 > goal),
which is false for every nonnegative goal (but true for a negative stored
goal). -/
theorem c6_most_problematic_amended (st : Store) (uid curMonth : String) :
    (get_most_problematic_category (Except.ok st) uid curMonth).goal_amount =
      (alookup st.goals uid).getD 500 ∧
    (get_most_problematic_category (Except.ok st) uid curMonth).exceeds_goal =
      decide ((get_most_problematic_category (Except.ok st) uid
          curMonth).current_spend >
        (get_most_problematic_category (Except.ok st) uid
          curMonth).goal_amount) ∧
    (currentMonthExpenses st uid curMonth = [] →
      (get_most_problematic_category (Except.ok st) uid curMonth).category =
          "Otros" ∧
      (get_most_problematic_category (Except.ok st) uid
          curMonth).current_spend = 0) ∧
    (currentMonthExpenses st uid curMonth ≠ [] →
      (∃ t ∈ currentMonthExpenses st uid curMonth, normalize t.category =
        (get_most_problematic_category (Except.ok st) uid
          curMonth).category) ∧
      (get_most_problematic_category (Except.ok st) uid
          curMonth).current_spend =
        catSpend (currentMonthExpenses st uid curMonth)
          (get_most_problematic_category (Except.ok st) uid
            curMonth).category ∧
      ∀ t ∈ currentMonthExpenses st uid curMonth,
        catSpend (currentMonthExpenses st uid curMonth)
            (normalize t.category) ≤
          (get_most_problematic_category (Except.ok st) uid
            curMonth).current_spend) := by
  cases hmax : argmaxAssoc (categoryTotals
      (currentMonthExpenses st uid curMonth)) with
  | none =>
      have hempty2 : categoryTotals (currentMonthExpenses st uid curMonth) =
          [] := (argmaxAssoc_eq_none _).mp hmax
      have hr : get_most_problematic_category (Except.ok st) uid curMonth =
          ⟨"Otros", 0, (alookup st.goals uid).getD 500,
            decide ((0 : ℚ) > (alookup st.goals uid).getD 500)⟩ := by
        rw [get_most_problematic_category]
        rw [hmax]
      refine ⟨by rw [hr], by rw [hr], fun _ => by rw [hr]; exact ⟨rfl, rfl⟩,
        fun hne => absurd ?_ hne⟩
      rcases hcase : currentMonthExpenses st uid curMonth with _ | ⟨t, rest⟩
      · rfl
      · exfalso
        have hmem : ∃ u ∈ currentMonthExpenses st uid curMonth,
            normalize u.category = normalize t.category :=
          ⟨t, by rw [hcase]; exact List.mem_cons_self t rest, rfl⟩
        have := (categoryTotals_isSome
          (currentMonthExpenses st uid curMonth)
          (normalize t.category)).mpr hmem
        rw [hempty2] at this
        simp [alookup] at this
  | some p =>
      obtain ⟨c, v⟩ := p
      have hr : get_most_problematic_category (Except.ok st) uid curMonth =
          ⟨c, v, (alookup st.goals uid).getD 500,
            decide (v > (alookup st.goals uid).getD 500)⟩ := by
        rw [get_most_problematic_category]
        rw [hmax]
      have hpmem : (c, v) ∈ categoryTotals
          (currentMonthExpenses st uid curMonth) :=
        argmaxAssoc_mem _ _ hmax
      have hvq : alookup (categoryTotals
          (currentMonthExpenses st uid curMonth)) c = some v :=
        alookup_of_mem_nodup _ (c, v) (categoryTotals_keys_nodup _) hpmem
      refine ⟨by rw [hr], by rw [hr], fun hemp => ?_, fun hne => ?_⟩
      · exfalso
        have : categoryTotals (currentMonthExpenses st uid curMonth) = [] := by
          rw [hemp]; rfl
        rw [this] at hpmem
        simp at hpmem
      · refine ⟨?_, ?_, ?_⟩
        · have : (alookup (categoryTotals
              (currentMonthExpenses st uid curMonth)) c).isSome = true := by
            rw [hvq]; rfl
          obtain ⟨t, ht, hnt⟩ := (categoryTotals_isSome _ _).mp this
          exact ⟨t, ht, by rw [hr]; exact hnt⟩
        · rw [hr]
          have := categoryTotals_getD (currentMonthExpenses st uid curMonth) c
          rw [hvq] at this
          exact this
        · intro t ht
          rw [hr]
          have hsome : ∃ u ∈ currentMonthExpenses st uid curMonth,
              normalize u.category = normalize t.category := ⟨t, ht, rfl⟩
          have hs := (categoryTotals_isSome
            (currentMonthExpenses st uid curMonth)
            (normalize t.category)).mpr hsome
          obtain ⟨v', hv'⟩ := Option.isSome_iff_exists.mp hs
          have hmem' : (normalize t.category, v') ∈ categoryTotals
              (currentMonthExpenses st uid curMonth) :=
            mem_of_alookup_eq_some _ _ _ hv'
          have hle : v' ≤ v := argmaxAssoc_ge _ _ hmax _ hmem'
          have hval : catSpend (currentMonthExpenses st uid curMonth)
              (normalize t.category) = v' := by
            have := categoryTotals_getD (currentMonthExpenses st uid curMonth)
              (normalize t.category)
            rw [hv'] at this
            exact this.symm
          rw [hval]
          exact hle

/-- Witness for the amended claim C6 at the spec's own example:
current-month expenses {Comida: 600, Renta: 400} with goal 500 give
category "Comida", spend 600, exceedsGoal = true, and "Comida" indeed
attains the per-category total of a current-month expense. -/
theorem c6_most_problematic_amended_witness :
    get_most_problematic_category (Except.ok ⟨[],
        [⟨"u", "expense", 600, "Comida", "x", "2025-10-05"⟩,
         ⟨"u", "expense", 400, "Renta", "y", "2025-10-06"⟩],
        [("u", 500)]⟩) "u" "2025-10" = ⟨"Comida", 600, 500, true⟩ ∧
    (∃ t ∈ currentMonthExpenses ⟨[],
        [⟨"u", "expense", 600, "Comida", "x", "2025-10-05"⟩,
         ⟨"u", "expense", 400, "Renta", "y", "2025-10-06"⟩],
        [("u", 500)]⟩ "u" "2025-10",
      normalize t.category = "Comida") ∧
    catSpend (currentMonthExpenses ⟨[],
        [⟨"u", "expense", 600, "Comida", "x", "2025-10-05"⟩,
         ⟨"u", "expense", 400, "Renta", "y", "2025-10-06"⟩],
        [("u", 500)]⟩ "u" "2025-10") "Comida" = 600 := by
  have hexp : currentMonthExpenses ⟨[],
      [⟨"u", "expense", 600, "Comida", "x", "2025-10-05"⟩,
       ⟨"u", "expense", 400, "Renta", "y", "2025-10-06"⟩],
      [("u", 500)]⟩ "u" "2025-10" =
      [⟨"u", "expense", 600, "Comida", "x", "2025-10-05"⟩,
       ⟨"u", "expense", 400, "Renta", "y", "2025-10-06"⟩] := by decide
  have hn1 : normalize "Comida" = "Comida" := by decide
  have hn2 : normalize "Renta" = "Renta" := by decide
  have hres : get_most_problematic_category (Except.ok ⟨[],
      [⟨"u", "expense", 600, "Comida", "x", "2025-10-05"⟩,
       ⟨"u", "expense", 400, "Renta", "y", "2025-10-06"⟩],
      [("u", 500)]⟩) "u" "2025-10" = ⟨"Comida", 600, 500, true⟩ := by
    simp only [get_most_problematic_category, hexp, categoryTotals,
      List.foldl_cons, List.foldl_nil, bumpAssoc, alookup, hn1, hn2,
      argmaxAssoc]
    norm_num
  refine ⟨hres, ?_, ?_⟩
  · have h := (c6_most_problematic_amended ⟨[],
        [⟨"u", "expense", 600, "Comida", "x", "2025-10-05"⟩,
         ⟨"u", "expense", 400, "Renta", "y", "2025-10-06"⟩],
        [("u", 500)]⟩ "u" "2025-10").2.2.2 (by decide)
    obtain ⟨t, ht, hnt⟩ := h.1
    refine ⟨t, ht, ?_⟩
    rw [hnt, hres]
  · have hf : (currentMonthExpenses ⟨[],
        [⟨"u", "expense", 600, "Comida", "x", "2025-10-05"⟩,
         ⟨"u", "expense", 400, "Renta", "y", "2025-10-06"⟩],
        [("u", 500)]⟩ "u" "2025-10").filter
        (fun t => normalize t.category == "Comida") =
        [⟨"u", "expense", 600, "Comida", "x", "2025-10-05"⟩] := by decide
    rw [catSpend, hf]
    norm_num

/-! ### Claim C5 -/

/-- The per-category, per-month expense total a transaction list induces:
the specification-side reading of one cell of the `monthly_data` nested
dict of `monthly_report`. -/
def mSum (txs : List Transaction) (c k : String) : ℚ :=
  ((txs.filter (fun t =>
    inclType t && (normalize t.category == c) && (monthKey t.date == k))).map
      Transaction.amount).sum

/-- The value of one cell of a nested month-bucket association list
(0 when absent), matching the `defaultdict` read discipline. -/
def mval (dat : List (String × List (String × ℚ))) (c k : String) : ℚ :=
  (alookup ((alookup dat c).getD []) k).getD 0

theorem alookup_addToData (dat : List (String × List (String × ℚ)))
    (c k : String) (a : ℚ) (q : String) :
    alookup (addToData dat c k a) q =
      if q = c then some (bumpAssoc ((alookup dat c).getD []) k a)
      else alookup dat q := by
  induction dat with
  | nil =>
      by_cases h : q = c
      · subst h; simp [addToData, alookup, bumpAssoc]
      · simp [addToData, alookup, h, Ne.symm h]
  | cons p rest ih =>
      obtain ⟨c0, ms⟩ := p
      by_cases hc : c0 = c
      · subst hc
        by_cases hq : q = c0
        · subst hq
          simp [addToData, alookup]
        · simp [addToData, alookup, hq, Ne.symm hq]
      · by_cases hq : q = c0
        · subst hq
          simp [addToData, alookup, hc, Ne.symm hc]
        · by_cases hqc : q = c
          · subst hqc
            simp [addToData, alookup, hc, Ne.symm hc, Ne.symm hq, ih]
          · simp [addToData, alookup, hc, Ne.symm hc, Ne.symm hq, hqc, ih]

theorem keys_addToData (dat : List (String × List (String × ℚ)))
    (c k : String) (a : ℚ) :
    (addToData dat c k a).map Prod.fst =
      if c ∈ dat.map Prod.fst then dat.map Prod.fst
      else dat.map Prod.fst ++ [c] := by
  induction dat with
  | nil => simp [addToData]
  | cons p rest ih =>
      obtain ⟨c0, ms⟩ := p
      by_cases hc : c0 = c
      · subst hc
        simp [addToData]
      · simp only [addToData, if_neg (fun hh : (c0 == c) = true =>
          hc (beq_iff_eq.mp hh)), List.map_cons]
        rw [ih]
        by_cases hm : c ∈ rest.map Prod.fst
        · rw [if_pos hm, if_pos (List.mem_cons_of_mem _ hm)]
        · rw [if_neg hm, if_neg (by
            intro hh
            rcases List.mem_cons.mp hh with hh' | hh'
            · exact hc hh'.symm
            · exact hm hh'), List.cons_append]

theorem mem_addToData (dat : List (String × List (String × ℚ)))
    (c k : String) (a : ℚ) (p : String × List (String × ℚ))
    (hp : p ∈ addToData dat c k a) :
    p ∈ dat ∨ (p.1 = c ∧ p.2 = bumpAssoc ((alookup dat c).getD []) k a) := by
  induction dat with
  | nil =>
      simp only [addToData, List.mem_singleton] at hp
      subst hp
      exact Or.inr ⟨rfl, by simp [alookup, bumpAssoc]⟩
  | cons q rest ih =>
      obtain ⟨c0, ms⟩ := q
      by_cases hc : c0 = c
      · subst hc
        simp only [addToData, if_pos (beq_iff_eq.mpr rfl)] at hp
        rcases List.mem_cons.mp hp with rfl | hp'
        · exact Or.inr ⟨rfl, by simp [alookup]⟩
        · exact Or.inl (List.mem_cons_of_mem _ hp')
      · simp only [addToData, if_neg (fun hh : (c0 == c) = true =>
          hc (beq_iff_eq.mp hh))] at hp
        rcases List.mem_cons.mp hp with rfl | hp'
        · exact Or.inl (List.mem_cons_self _ _)
        · rcases ih hp' with hold | ⟨h1, h2⟩
          · exact Or.inl (List.mem_cons_of_mem _ hold)
          · refine Or.inr ⟨h1, ?_⟩
            rw [h2]
            have : alookup ((c0, ms) :: rest) c = alookup rest c := by
              simp [alookup, hc]
            rw [this]

theorem bumpAssoc_ne_nil (ms : List (String × ℚ)) (k : String) (a : ℚ) :
    bumpAssoc ms k a ≠ [] := by
  cases ms with
  | nil => simp [bumpAssoc]
  | cons p rest =>
      obtain ⟨k0, v0⟩ := p
      by_cases h : k0 = k <;> simp [bumpAssoc, h]

theorem bump_keys_nodup (ms : List (String × ℚ)) (k : String) (a : ℚ)
    (h : (ms.map Prod.fst).Nodup) :
    ((bumpAssoc ms k a).map Prod.fst).Nodup := by
  rw [keys_bumpAssoc]
  by_cases hm : k ∈ ms.map Prod.fst
  · rw [if_pos hm]; exact h
  · rw [if_neg hm]
    simp [List.nodup_append, h, hm]

theorem monthlyFold_getD (txs : List Transaction)
    (acc : List (String × List (String × ℚ)) × List (String × String))
    (c k : String) :
    mval (txs.foldl mrStep acc).1 c k = mval acc.1 c k + mSum txs c k := by
  induction txs generalizing acc with
  | nil => simp [mSum, mval]
  | cons t rest ih =>
      rw [List.foldl_cons]
      by_cases hincl : inclType t = true
      · have hstep : mrStep acc t =
            (addToData acc.1 (normalize t.category) (monthKey t.date)
              t.amount,
             setType acc.2 (normalize t.category) t.txType) := by
          simp [mrStep, hincl]
        rw [hstep, ih]
        by_cases hc : c = normalize t.category
        · by_cases hk : k = monthKey t.date
          · have h1 : mval (addToData acc.1 (normalize t.category)
                (monthKey t.date) t.amount) c k =
                mval acc.1 c k + t.amount := by
              simp only [mval]
              rw [alookup_addToData, if_pos hc, Option.getD_some,
                alookup_bumpAssoc, if_pos hk, Option.getD_some, hc, hk]
            have h2 : mSum (t :: rest) c k = t.amount + mSum rest c k := by
              simp [mSum, List.filter_cons, hincl, hc.symm, hk.symm]
            rw [h1, h2]
            ring
          · have h1 : mval (addToData acc.1 (normalize t.category)
                (monthKey t.date) t.amount) c k = mval acc.1 c k := by
              simp only [mval]
              rw [alookup_addToData, if_pos hc, Option.getD_some,
                alookup_bumpAssoc, if_neg hk, hc]
            have h2 : mSum (t :: rest) c k = mSum rest c k := by
              simp only [mSum, List.filter_cons]
              rw [if_neg (by
                simp only [Bool.and_eq_true, beq_iff_eq, not_and]
                intro _ hh
                exact absurd hh.symm hk)]
            rw [h1, h2]
        · have h1 : mval (addToData acc.1 (normalize t.category)
              (monthKey t.date) t.amount) c k = mval acc.1 c k := by
            simp only [mval]
            rw [alookup_addToData, if_neg hc]
          have h2 : mSum (t :: rest) c k = mSum rest c k := by
            simp only [mSum, List.filter_cons]
            rw [if_neg (by
              simp only [Bool.and_eq_true, beq_iff_eq, not_and]
              intro hh
              exact absurd hh.2.symm hc)]
          rw [h1, h2]
      · have hstep : mrStep acc t = acc := by
          simp [mrStep, hincl]
        rw [hstep, ih]
        have h2 : mSum (t :: rest) c k = mSum rest c k := by
          simp only [mSum, List.filter_cons]
          rw [if_neg (by
            simp only [Bool.and_eq_true, not_and]
            intro hh
            exact absurd hh.1 hincl)]
        rw [h2]

theorem monthlyFold_isSome (txs : List Transaction)
    (acc : List (String × List (String × ℚ)) × List (String × String))
    (c k : String) :
    (alookup ((alookup (txs.foldl mrStep acc).1 c).getD []) k).isSome =
        true ↔
      (alookup ((alookup acc.1 c).getD []) k).isSome = true ∨
        ∃ t ∈ txs, inclType t = true ∧ normalize t.category = c ∧
          monthKey t.date = k := by
  induction txs generalizing acc with
  | nil => simp
  | cons t rest ih =>
      rw [List.foldl_cons]
      by_cases hincl : inclType t = true
      · have hstep : mrStep acc t =
            (addToData acc.1 (normalize t.category) (monthKey t.date)
              t.amount,
             setType acc.2 (normalize t.category) t.txType) := by
          simp [mrStep, hincl]
        rw [hstep, ih]
        by_cases hc : c = normalize t.category
        · by_cases hk : k = monthKey t.date
          · have h1 : (alookup ((alookup (addToData acc.1
                (normalize t.category) (monthKey t.date) t.amount)
                c).getD []) k).isSome = true := by
              rw [alookup_addToData, if_pos hc, Option.getD_some,
                alookup_bumpAssoc, if_pos hk]
              rfl
            refine iff_of_true (Or.inl h1)
              (Or.inr ⟨t, List.mem_cons_self _ _, hincl, hc.symm, hk.symm⟩)
          · have h1 : (alookup ((alookup (addToData acc.1
                (normalize t.category) (monthKey t.date) t.amount)
                c).getD []) k).isSome =
                (alookup ((alookup acc.1 c).getD []) k).isSome := by
              rw [alookup_addToData, if_pos hc, Option.getD_some,
                alookup_bumpAssoc, if_neg hk, hc]
            rw [h1]
            constructor
            · rintro (hx | ⟨u, hu, h⟩)
              · exact Or.inl hx
              · exact Or.inr ⟨u, List.mem_cons_of_mem _ hu, h⟩
            · rintro (hx | ⟨u, hu, h⟩)
              · exact Or.inl hx
              · rcases List.mem_cons.mp hu with rfl | hu'
                · exact absurd h.2.2.symm hk
                · exact Or.inr ⟨u, hu', h⟩
        · have h1 : (alookup ((alookup (addToData acc.1
              (normalize t.category) (monthKey t.date) t.amount) c).getD [])
              k).isSome = (alookup ((alookup acc.1 c).getD []) k).isSome := by
            rw [alookup_addToData, if_neg hc]
          rw [h1]
          constructor
          · rintro (hx | ⟨u, hu, h⟩)
            · exact Or.inl hx
            · exact Or.inr ⟨u, List.mem_cons_of_mem _ hu, h⟩
          · rintro (hx | ⟨u, hu, h⟩)
            · exact Or.inl hx
            · rcases List.mem_cons.mp hu with rfl | hu'
              · exact absurd h.2.1.symm hc
              · exact Or.inr ⟨u, hu', h⟩
      · have hstep : mrStep acc t = acc := by
          simp [mrStep, hincl]
        rw [hstep, ih]
        constructor
        · rintro (hx | ⟨u, hu, h⟩)
          · exact Or.inl hx
          · exact Or.inr ⟨u, List.mem_cons_of_mem _ hu, h⟩
        · rintro (hx | ⟨u, hu, h⟩)
          · exact Or.inl hx
          · rcases List.mem_cons.mp hu with rfl | hu'
            · exact absurd h.1 hincl
            · exact Or.inr ⟨u, hu', h⟩

theorem monthlyFold_keys_nodup (txs : List Transaction)
    (acc : List (String × List (String × ℚ)) × List (String × String))
    (hn : ((acc.1).map Prod.fst).Nodup) :
    (((txs.foldl mrStep acc).1).map Prod.fst).Nodup := by
  induction txs generalizing acc with
  | nil => exact hn
  | cons t rest ih =>
      rw [List.foldl_cons]
      by_cases hincl : inclType t = true
      · have hstep : mrStep acc t =
            (addToData acc.1 (normalize t.category) (monthKey t.date)
              t.amount,
             setType acc.2 (normalize t.category) t.txType) := by
          simp [mrStep, hincl]
        rw [hstep]
        refine ih _ ?_
        rw [keys_addToData]
        by_cases hm : normalize t.category ∈ acc.1.map Prod.fst
        · rw [if_pos hm]; exact hn
        · rw [if_neg hm]
          simp [List.nodup_append, hn, hm]
      · have hstep : mrStep acc t = acc := by
          simp [mrStep, hincl]
        rw [hstep]
        exact ih _ hn

theorem monthlyFold_months_nodup (txs : List Transaction)
    (acc : List (String × List (String × ℚ)) × List (String × String))
    (hn : ∀ p ∈ acc.1, ((p.2).map Prod.fst).Nodup) :
    ∀ p ∈ (txs.foldl mrStep acc).1, ((p.2).map Prod.fst).Nodup := by
  induction txs generalizing acc with
  | nil => exact hn
  | cons t rest ih =>
      rw [List.foldl_cons]
      by_cases hincl : inclType t = true
      · have hstep : mrStep acc t =
            (addToData acc.1 (normalize t.category) (monthKey t.date)
              t.amount,
             setType acc.2 (normalize t.category) t.txType) := by
          simp [mrStep, hincl]
        rw [hstep]
        refine ih _ ?_
        intro p hp
        rcases mem_addToData acc.1 (normalize t.category) (monthKey t.date)
            t.amount p hp with hold | ⟨-, h2⟩
        · exact hn p hold
        · rw [h2]
          refine bump_keys_nodup _ _ _ ?_
          cases hms : alookup acc.1 (normalize t.category) with
          | none => simp
          | some ms =>
              have := hn (normalize t.category, ms)
                (mem_of_alookup_eq_some _ _ _ hms)
              simpa using this
      · have hstep : mrStep acc t = acc := by
          simp [mrStep, hincl]
        rw [hstep]
        exact ih _ hn

theorem monthlyFold_entries_ne_nil (txs : List Transaction)
    (acc : List (String × List (String × ℚ)) × List (String × String))
    (hn : ∀ p ∈ acc.1, p.2 ≠ []) :
    ∀ p ∈ (txs.foldl mrStep acc).1, p.2 ≠ [] := by
  induction txs generalizing acc with
  | nil => exact hn
  | cons t rest ih =>
      rw [List.foldl_cons]
      by_cases hincl : inclType t = true
      · have hstep : mrStep acc t =
            (addToData acc.1 (normalize t.category) (monthKey t.date)
              t.amount,
             setType acc.2 (normalize t.category) t.txType) := by
          simp [mrStep, hincl]
        rw [hstep]
        refine ih _ ?_
        intro p hp
        rcases mem_addToData acc.1 (normalize t.category) (monthKey t.date)
            t.amount p hp with hold | ⟨-, h2⟩
        · exact hn p hold
        · rw [h2]
          exact bumpAssoc_ne_nil _ _ _
      · have hstep : mrStep acc t = acc := by
          simp [mrStep, hincl]
        rw [hstep]
        exact ih _ hn

theorem padTrend_length (l : List ℚ) (h : l ≠ []) :
    2 ≤ (padTrend l).length := by
  match l with
  | [] => exact absurd rfl h
  | [x] => simp [padTrend]
  | x :: y :: rest => simp [padTrend]

/-- Claim C5: every entry of the monthlyTrend output lists, for its
category, the per-month summed amounts of the user's income/expense
transactions ordered by ascending "YYYY-MM" month key (strictly, since the
month keys are distinct); a category with exactly one month of data gets a
synthetic leading zero via `padTrend`, so every trend has at least two
points, and the reported total is the sum of the (padded) trend. -/
theorem c5_monthly_trend_ordered (st : Store) (uid : String) (e : TrendEntry)
    (he : e ∈ monthly_report st uid) :
    ∃ ms : List String,
      ms.Sorted strLe ∧ ms.Nodup ∧
      (∀ k, k ∈ ms ↔ ∃ t ∈ userTransactions st uid, inclType t = true ∧
        normalize t.category = e.category_name ∧ monthKey t.date = k) ∧
      e.monthly_trend =
        padTrend (ms.map (mSum (userTransactions st uid) e.category_name)) ∧
      e.total_amount = e.monthly_trend.sum ∧
      2 ≤ e.monthly_trend.length := by
  obtain ⟨p, hp, rfl⟩ := List.mem_map.mp he
  obtain ⟨c, months⟩ := p
  have houter : ((buildMonthly (userTransactions st uid)).1.map
      Prod.fst).Nodup :=
    monthlyFold_keys_nodup _ ([], []) (by simp)
  have hlook : alookup (buildMonthly (userTransactions st uid)).1 c =
      some months :=
    alookup_of_mem_nodup _ (c, months) houter hp
  have hinner : (months.map Prod.fst).Nodup := by
    have := monthlyFold_months_nodup (userTransactions st uid) ([], [])
      (by simp) (c, months) hp
    simpa using this
  have hne : months ≠ [] := by
    have := monthlyFold_entries_ne_nil (userTransactions st uid) ([], [])
      (by simp) (c, months) hp
    simpa using this
  refine ⟨List.insertionSort strLe (months.map Prod.fst),
    List.sorted_insertionSort strLe _,
    (List.perm_insertionSort strLe _).nodup_iff.mpr hinner, ?_, ?_, rfl, ?_⟩
  · intro k
    rw [(List.perm_insertionSort strLe _).mem_iff,
      ← alookup_isSome_iff months k]
    have hbase := monthlyFold_isSome (userTransactions st uid) ([], []) c k
    simp only [alookup, Option.getD_none, Option.isSome_none,
      Bool.false_eq_true, false_or] at hbase
    rw [← hbase]
    rw [buildMonthly] at hlook
    rw [hlook, Option.getD_some]
  · have hcongr : ∀ m ∈ List.insertionSort strLe (months.map Prod.fst),
        (alookup months m).getD 0 =
          mSum (userTransactions st uid) c m := by
      intro m _
      have hv := monthlyFold_getD (userTransactions st uid) ([], []) c m
      simp only [mval, alookup, Option.getD_none, Option.isSome_none] at hv
      rw [buildMonthly] at hlook
      rw [hlook, Option.getD_some] at hv
      simpa using hv
    show padTrend _ = padTrend _
    rw [List.map_congr_left hcongr]
  · show 2 ≤ (padTrend _).length
    refine padTrend_length _ ?_
    intro hmap
    rw [List.map_eq_nil_iff] at hmap
    have hlen := (List.perm_insertionSort strLe
      ((c, months).2.map Prod.fst)).length_eq
    rw [hmap] at hlen
    have hkeys : months.map Prod.fst = [] :=
      List.length_eq_zero.mp hlen.symm
    exact hne (List.map_eq_nil_iff.mp hkeys)

/-- Witness for claim C5 at the spec's own example: a category with
transactions only in "2024-03" totalling 100 yields trend [0, 100] and
totalAmount 100, and the trend satisfies the ordering/padding
characterization. -/
theorem c5_monthly_trend_ordered_witness :
    monthly_report ⟨[], [⟨"u", "expense", 100, "Comida", "x", "2024-03-10"⟩],
        []⟩ "u" = [⟨"Comida", 100, [0, 100], "expense"⟩] ∧
    ∃ ms : List String,
      ms.Sorted strLe ∧ ms.Nodup ∧
      (∀ k, k ∈ ms ↔ ∃ t ∈ userTransactions ⟨[],
          [⟨"u", "expense", 100, "Comida", "x", "2024-03-10"⟩], []⟩ "u",
        inclType t = true ∧ normalize t.category = "Comida" ∧
          monthKey t.date = k) ∧
      ([0, 100] : List ℚ) =
        padTrend (ms.map (mSum (userTransactions ⟨[],
          [⟨"u", "expense", 100, "Comida", "x", "2024-03-10"⟩], []⟩ "u")
          "Comida")) ∧
      (100 : ℚ) = ([0, 100] : List ℚ).sum ∧
      2 ≤ ([0, 100] : List ℚ).length := by
  have hstep : mrStep ([], [])
      ⟨"u", "expense", 100, "Comida", "x", "2024-03-10"⟩ =
      ([("Comida", [("2024-03", (100 : ℚ))])], [("Comida", "expense")]) := by
    decide
  have hn1 : normalize "Comida" = "Comida" := by decide
  have hres : monthly_report ⟨[],
      [⟨"u", "expense", 100, "Comida", "x", "2024-03-10"⟩], []⟩ "u" =
      [⟨"Comida", 100, [0, 100], "expense"⟩] := by
    norm_num [monthly_report, userTransactions, buildMonthly, hstep,
      alookup, padTrend, hn1]
  refine ⟨hres, ?_⟩
  have h := c5_monthly_trend_ordered ⟨[],
      [⟨"u", "expense", 100, "Comida", "x", "2024-03-10"⟩], []⟩ "u"
    ⟨"Comida", 100, [0, 100], "expense"⟩
    (by rw [hres]; exact List.mem_cons_self _ _)
  exact h

end GestionGastos
